import Mathlib

/-!
Verification of the `express-list-endpoints` source (`src/index.js`).

The source works on the serialized text of compiled Express path patterns with
three JavaScript regular expressions.  This file embeds those regular
expressions as executable matchers over `List Char`, reproducing the
backtracking search order of the JavaScript engine (greedy quantifiers,
leftmost alternation, leftmost match), and embeds the route/stack traversal
over an inductive model of the routing tree.

The regex `regexpExpressParamRegexp` in the source carries the JavaScript `g`
flag and is consulted through `RegExp.prototype.test`, which reads and writes
the regex object's `lastIndex` property: a successful `test` resumes the next
search at the end of the previous match, and a failed `test` resets
`lastIndex` to `0`.  That module-global mutable position is modelled
explicitly as a `Nat` threaded through `hasParamsSt` and `parseExpressPathSt`.
-/

namespace ExpressListEndpoints

/-! ## Character-class and candidate-list helpers

Each JavaScript sub-pattern is embedded as a function returning the list of
possible remaining suffixes, in the exact order the backtracking engine tries
them (greedy quantifiers produce longer consumptions first).  A composite
pattern match succeeds on the first candidate whose continuation succeeds. -/

/-- Character class of the JavaScript fragment regexes inside the source
pattern: the class written there as word characters plus backslash, dot and
hyphen. -/
def isWChar (c : Char) : Bool :=
  c.isAlpha || c.isDigit || c = '_' || c = '\\' || c = '.' || c = '-'

/-- Candidates after an optional single literal character (greedy: the
consuming alternative is tried first). -/
def candsOpt (c : Char) : List Char → List (List Char)
  | [] => [[]]
  | a :: t => if a = c then [t, a :: t] else [a :: t]

/-- The suffixes `s.drop n, s.drop (n-1), ..., s.drop 0`: candidate remainders
of a greedy star over a character class, longest consumption first. -/
def dropsDesc (s : List Char) : Nat → List (List Char)
  | 0 => [s]
  | n + 1 => s.drop (n + 1) :: dropsDesc s n

/-- Candidates after the greedy star of the `isWChar` character class. -/
def candsW (s : List Char) : List (List Char) :=
  dropsDesc s (s.takeWhile isWChar).length

/-- Candidates after an optional colon followed by the `isWChar` star
(the sub-pattern written in the source as a colon option before the class
star); the branch consuming the colon is tried first. -/
def candsColonW (s : List Char) : List (List Char) :=
  (match s with
   | ':' :: t => candsW t
   | _ => []) ++ candsW s

/-- Candidates after the greedy star of the repeated group
"escaped slash, optional colon, class star" of the source's path-parsing
regex.  The `fuel` argument only bounds the recursion; every repetition
consumes the two mandatory characters of an escaped slash, so with
`fuel ≥ s.length` (as used in `candsG1`) the bound is never reached and the
function enumerates exactly the engine's backtracking order. -/
def candsStarR : Nat → List Char → List (List Char)
  | fuel + 1, '\\' :: '/' :: t =>
      ((candsColonW t).flatMap (candsStarR fuel)) ++ ['\\' :: '/' :: t]
  | _, s => [s]

/-- Candidates after capture group 1 of the source's path-parsing regex:
an optional leading colon, a class star, then the starred
"escaped slash, optional colon, class star" group. -/
def candsG1 (s : List Char) : List (List Char) :=
  (candsColonW s).flatMap (fun s' => candsStarR s'.length s')

/-- Matches an opening parenthesis, a nonempty greedy run of characters other
than a closing parenthesis, then two closing parentheses, returning the
remaining suffix.  (Shortening the greedy run cannot help: the character after
a shortened run is again not a closing parenthesis, so the match is unique.) -/
def matchParenBody (s : List Char) : Option (List Char) :=
  match s with
  | '(' :: t =>
      let run := t.takeWhile (· ≠ ')')
      if run.isEmpty then none
      else
        match t.drop run.length with
        | ')' :: ')' :: u => some u
        | _ => none
  | _ => none

/-- The tail of the parameter-fragment regex `regexpExpressParamRegexp`
after its literal opening "(?:" — two optional backslashes, an optional
slash, then the parenthesized body. -/
def fragTailParam (s : List Char) : Option (List Char) :=
  (((candsOpt '\\' s).flatMap (candsOpt '\\')).flatMap (candsOpt '/')).findSome?
    matchParenBody

/-- The tail of the replacement regex `regExpToReplaceExpressPathRegExpParams`
after its literal opening "(?:" — one optional backslash, an optional slash,
then the parenthesized body.  This is also capture group 2 of the
path-parsing regex. -/
def fragTailReplace (s : List Char) : Option (List Char) :=
  ((candsOpt '\\' s).flatMap (candsOpt '/')).findSome? matchParenBody

/-- Match of `regexpExpressParamRegexp` anchored at the head of `s`,
returning the suffix after the match. -/
def matchParamFragAt (s : List Char) : Option (List Char) :=
  match s with
  | '(' :: '?' :: ':' :: t => fragTailParam t
  | _ => none

/-- Match of `regExpToReplaceExpressPathRegExpParams` anchored at the head of
`s`, returning the suffix after the match. -/
def matchReplaceFragAt (s : List Char) : Option (List Char) :=
  match s with
  | '(' :: '?' :: ':' :: t => fragTailReplace t
  | _ => none

/-- Leftmost-match search: starting at absolute position `p`, returns the
absolute start and end of the first position where `f` matches. -/
def scanFragWith (f : List Char → Option (List Char)) :
    List Char → Nat → Option (Nat × Nat)
  | t, p =>
      match f t with
      | some rest => some (p, p + (t.length - rest.length))
      | none =>
          match t with
          | [] => none
          | _ :: t2 => scanFragWith f t2 (p + 1)

/-- One `test` of the global regex `regexpExpressParamRegexp` (the source's
`hasParams`) with `lastIndex` state: the search starts at `lastIndex`; on a
hit `lastIndex` becomes the match end, on a miss it is reset to `0`. -/
def hasParamsSt (s : List Char) (lastIndex : Nat) : Bool × Nat :=
  match scanFragWith matchParamFragAt (s.drop lastIndex) lastIndex with
  | some (_, e) => (true, e)
  | none => (false, 0)

/-- One `String.prototype.replace` with the non-global
`regExpToReplaceExpressPathRegExpParams` and the source's replacer callback:
the leftmost fragment match is replaced by the parameter placeholder,
prefixed by an escaped slash when the matched fragment itself starts with
"(?:" followed by an escaped slash (the Express ≥ 4.20.0 encoding). -/
def replaceFirstFrag (s : List Char) (paramId : List Char) : List Char :=
  match scanFragWith matchReplaceFragAt s 0 with
  | none => s
  | some (b, e) =>
      let matched := (s.drop b).take (e - b)
      let repl :=
        if matched.take 5 = ['(', '?', ':', '\\', '/'] then
          '\\' :: '/' :: paramId
        else paramId
      s.take b ++ repl ++ s.drop e

/-- The alternation-and-continuation part of the path-parsing regex at a
fixed start position: capture group 1 is tried first (all its backtracking
candidates), then capture group 2; the continuation requires a literal
escaped slash, after which the trailing dot-star always succeeds.  Returns
`none` when no branch matches, `some g` when a branch matches, where `g` is
the value of capture group 1 (`none` models the group being undefined when
the group-2 branch matched). -/
def execParseFrom (t2 : List Char) : Option (Option (List Char)) :=
  match (candsG1 t2).findSome? (fun c =>
      match c with
      | '\\' :: '/' :: _ => some (t2.take (t2.length - c.length))
      | _ => none) with
  | some g1 => some (some g1)
  | none =>
      match matchReplaceFragAt t2 with
      | some ('\\' :: '/' :: _) => some none
      | _ => none

/-- One `exec` of the anchored path-parsing regex
`regExpToParseExpressPathRegExp`: a literal slash and caret, an optional
backslash, an optional slash (both greedy), then the alternation handled by
`execParseFrom`.  `none` models a null `exec` result; `some g` a successful
match with capture group 1 equal to `g`. -/
def execParse (s : List Char) : Option (Option (List Char)) :=
  match s with
  | '/' :: '^' :: t =>
      ((candsOpt '\\' t).flatMap (candsOpt '/')).findSome? execParseFrom
  | _ => none

/-- The `test` of `regExpToParseExpressPathRegExp` (no `g` flag, stateless). -/
def testParse (s : List Char) : Bool :=
  (execParse s).isSome

/-- Global replacement of every escaped slash by a plain slash, the final
step of `parseExpressPath`. -/
def unescapeSlashes : List Char → List Char
  | '\\' :: '/' :: t => '/' :: unescapeSlashes t
  | c :: t => c :: unescapeSlashes t
  | [] => []

/-- Failure modes of `parseExpressPath`, each a JavaScript `TypeError` in the
source: reading `.name` of an out-of-range descriptor, indexing a null `exec`
result, or calling `.replace` on an undefined capture group. -/
inductive DecodeErr : Type where
  | descriptorsExhausted : DecodeErr
  | nullExec : DecodeErr
  | undefinedGroup : DecodeErr
deriving DecidableEq

/-- The while loop of `parseExpressPath`: while `hasParams` reports a
fragment, read the next descriptor name (a `TypeError` when the list is
exhausted) and replace the leftmost fragment with its placeholder.  The
second component is the `lastIndex` of `regexpExpressParamRegexp` when the
loop stops (on normal exit the failed `test` has just reset it to `0`; on a
throw it keeps the value the successful `test` gave it). -/
def paramLoop : List Char → Nat → List String → Except Unit (List Char) × Nat
  | s, st, params =>
      match hasParamsSt s st with
      | (false, st0) => (.ok s, st0)
      | (true, st') =>
          match params with
          | [] => (.error (), st')
          | p :: rest => paramLoop (replaceFirstFrag s (':' :: p.toList)) st' rest

/-- The source's `parseExpressPath`, with the serialized pattern as a
character list, the ordered descriptor names, and the incoming `lastIndex` of
the module-global `regexpExpressParamRegexp`; returns the decoded template
(or the `TypeError` raised) together with the outgoing `lastIndex`. -/
def parseExpressPathSt (s : List Char) (params : List String) (st : Nat) :
    Except DecodeErr (List Char) × Nat :=
  let exec1 := execParse s
  match paramLoop s st params with
  | (.error _, st') => (.error .descriptorsExhausted, st')
  | (.ok parsed, st') =>
      let ex := if parsed ≠ s then execParse parsed else exec1
      match ex with
      | none => (.error .nullExec, st')
      | some none => (.error .undefinedGroup, st')
      | some (some g1) => (.ok (unescapeSlashes g1), st')

/-! ## Inline parameter normalization

The source's `regexpExpressPathParamRegexp` — a colon, a nonempty greedy run
of characters other than a closing parenthesis (captured together with the
colon), then a parenthesized nonempty run of such characters — applied as a
global replacement keeping only the capture (stripping a custom matcher
suffix such as a parenthesized digit class from an inline parameter). -/

/-- Matches a parenthesized nonempty run of characters other than a closing
parenthesis, returning the suffix after the closing parenthesis. -/
def parenAfter (u : List Char) : Option (List Char) :=
  match u with
  | '(' :: v =>
      let run := v.takeWhile (· ≠ ')')
      if run.isEmpty then none
      else
        match v.drop run.length with
        | ')' :: w => some w
        | _ => none
  | _ => none

/-- Greedy search for the capture's run length after the colon, longest
first: content length `k` is accepted when its characters avoid the closing
parenthesis and a parenthesized suffix follows; otherwise the next shorter
length is tried, as the backtracking engine does. -/
def inlineTryK (t : List Char) : Nat → Option (List Char × List Char)
  | 0 => none
  | k + 1 =>
      if (t.take (k + 1)).all (· ≠ ')') then
        match parenAfter (t.drop (k + 1)) with
        | some w => some (t.take (k + 1), w)
        | none => inlineTryK t k
      else inlineTryK t k

/-- Match of `regexpExpressPathParamRegexp` anchored at the head of `s`,
returning the capture (the colon and the parameter name) and the suffix
after the whole match. -/
def matchInlineAt (s : List Char) : Option (List Char × List Char) :=
  match s with
  | ':' :: t => (inlineTryK t t.length).map (fun p => (':' :: p.1, p.2))
  | _ => none

/-- Global replacement by the capture: scan left to right, replace each
leftmost match by its capture group and continue after the match.  The fuel
only bounds the recursion; every match consumes at least one character, so
with `fuel ≥ s.length` (as used in `replaceInlineParams`) the bound is never
reached. -/
def replaceInlineParamsF : Nat → List Char → List Char
  | _, [] => []
  | 0, s => s
  | fuel + 1, c :: t =>
      match matchInlineAt (c :: t) with
      | some (g1, rest) => g1 ++ replaceInlineParamsF fuel rest
      | none => c :: replaceInlineParamsF fuel t

/-- The replacement of `regexpExpressPathParamRegexp` matches by their
capture group, as applied to each complete path in `parseExpressRoute`. -/
def replaceInlineParams (s : List Char) : List Char :=
  replaceInlineParamsF s.length s

/-! ## Data model

The routing tree as the source reads it: a node (`ExpressApp`) exposes an
optional direct layer stack and an optional stack behind the conventional
router field; a `Layer` carries an optional terminal route, a name, an
optional literal mount path, the serialized text of its optional compiled
matching pattern, the ordered parameter descriptor names, and the nested
node it delegates to.  A terminal `RouteObj` carries its method table keys in
insertion order, one literal path or a list of them, and the declared names
of the handlers on its own stack (the empty string standing for a handler
with no name). -/

structure RouteObj : Type where
  methods : List String
  path : String ⊕ List String
  stack : List String
deriving DecidableEq

structure Options : Type where
  includeMiddlewareRoutes : Bool
deriving DecidableEq

structure Endpoint : Type where
  path : String
  methods : List String
  middlewares : List String
deriving DecidableEq

mutual
inductive ExpressApp : Type where
  | mk : Option LayerList → Option LayerList → ExpressApp

inductive LayerList : Type where
  | nil : LayerList
  | cons : Layer → LayerList → LayerList

inductive Layer : Type where
  | mk : Option RouteObj → String → Option String → Option String →
      List String → ExpressApp → Layer
end

/-- The optional terminal route of a layer. -/
def Layer.route : Layer → Option RouteObj
  | .mk r _ _ _ _ _ => r

/-- The name of a layer's handle function. -/
def Layer.name : Layer → String
  | .mk _ n _ _ _ _ => n

/-- The optional literal mount path of a layer. -/
def Layer.path : Layer → Option String
  | .mk _ _ p _ _ _ => p

/-- The serialized text of a layer's compiled matching pattern, when the
layer carries one. -/
def Layer.regexp : Layer → Option String
  | .mk _ _ _ rx _ _ => rx

/-- The ordered parameter descriptor names of a layer's compiled pattern. -/
def Layer.keys : Layer → List String
  | .mk _ _ _ _ ks _ => ks

/-- The nested node a mount layer delegates to. -/
def Layer.handle : Layer → ExpressApp
  | .mk _ _ _ _ _ h => h

/-- Conversion of the layer-stack type to an ordinary list, for statements. -/
def LayerList.toList : LayerList → List Layer
  | .nil => []
  | .cons l ls => l :: ls.toList

/-! ## Constants of the source -/

def DEFAULT_OPTIONS : Options := ⟨true⟩

def EXPRESS_ROOT_PATH_REGEXP_VALUE : String := "/^\\/?(?=\\/|$)/i"

def STACK_ITEM_VALID_NAMES : List String :=
  ["router", "bound dispatch", "mounted_app"]

def STACK_ITEM_VALID_NAMES_INCLUDING_MIDDLEWARE_ROUTES : List String :=
  "<anonymous>" :: STACK_ITEM_VALID_NAMES

/-! ## Route extractor -/

/-- Uppercasing of a method name, character by character (the method names
in scope are ASCII, where the JavaScript and Lean uppercasing agree). -/
def strUpper (s : String) : String :=
  ⟨s.toList.map Char.toUpper⟩

/-- The source's `getRouteMethods`: the route's method table keys with the
wildcard entry removed, uppercased, in table order. -/
def getRouteMethods (route : RouteObj) : List String :=
  (route.methods.filter (fun m => m ≠ "_all")).map strUpper

/-- The source's `getRouteMiddlewares`: each handler's declared name, with
"anonymous" substituted for a falsy (empty) name. -/
def getRouteMiddlewares (route : RouteObj) : List String :=
  route.stack.map (fun n => if n = "" then "anonymous" else n)

/-- The declared literal paths of a route: the single path, or the elements
of the declared list. -/
def routePaths (route : RouteObj) : List String :=
  match route.path with
  | .inl p => [p]
  | .inr ps => ps

/-- String form of the inline-parameter normalization. -/
def normalizePathParams (s : String) : String :=
  ⟨replaceInlineParams s.toList⟩

/-- The source's `parseExpressRoute`: one endpoint per declared path; the
complete path is the base path alone when the base path is nonempty and the
literal path is exactly the root slash, and their concatenation otherwise,
normalized by stripping inline custom-matcher suffixes. -/
def parseExpressRoute (route : RouteObj) (basePath : String) : List Endpoint :=
  (routePaths route).map (fun path =>
    let completePath := if basePath ≠ "" && path = "/" then basePath
      else basePath ++ path
    { path := normalizePathParams completePath
      methods := getRouteMethods route
      middlewares := getRouteMiddlewares route })

/-! ## Endpoint merger -/

/-- One step of the source's `addEndpoints` loop: the first existing entry
with the candidate's path, if any, absorbs the candidate's genuinely new
methods at the end of its method list (its middlewares untouched); otherwise
the candidate is appended at the end. -/
def mergeOne : List Endpoint → Endpoint → List Endpoint
  | [], e => [e]
  | x :: xs, e =>
      if x.path = e.path then
        { x with
          methods := x.methods ++
            e.methods.filter (fun m => !(x.methods.contains m)) } :: xs
      else x :: mergeOne xs e

/-- The source's `addEndpoints`, merging each candidate in order. -/
def addEndpoints (currentEndpoints endpointsToAdd : List Endpoint) :
    List Endpoint :=
  endpointsToAdd.foldl mergeOne currentEndpoints

/-! ## Stack walker -/

/-- The stack the walker traverses: the node's direct stack when present
(an empty stack is an array, hence truthy in the source), else the stack
behind the conventional router field. -/
def appStack : ExpressApp → Option LayerList
  | .mk (some s) _ => some s
  | .mk none r => r

/-- Truthiness of the optional literal mount path (absent or empty is
falsy). -/
def pathTruthy : Option String → Bool
  | none => false
  | some s => s ≠ ""

/-- The recognized mount-kind names for the active configuration. -/
def validNamesFor (options : Options) : List String :=
  if options.includeMiddlewareRoutes then
    STACK_ITEM_VALID_NAMES_INCLUDING_MIDDLEWARE_ROUTES
  else STACK_ITEM_VALID_NAMES

/-- The extended base path for a non-terminal recognized layer, as computed
inline in the source's `parseStack`: when the serialized pattern passes the
path-parsing regex, a slash and the decoded template are appended; otherwise,
when the layer has no truthy literal path but does carry a pattern other
than the root sentinel, a slash and a raw-pattern segment are appended; else
the base path is unchanged.  Within one top-level call every decoder
invocation starts with the shared matcher position at `0`: a successful
invocation resets it and a throwing one aborts the walk, so the walker
passes `0` explicitly. -/
def newBasePathOf (stackItem : Layer) (basePath : String) :
    Except DecodeErr String :=
  match stackItem.regexp with
  | some r =>
      if testParse r.toList then
        match (parseExpressPathSt r.toList stackItem.keys 0).1 with
        | .error e => .error e
        | .ok parsedPath => .ok (basePath ++ "/" ++ ⟨parsedPath⟩)
      else if !(pathTruthy stackItem.path) && r ≠ EXPRESS_ROOT_PATH_REGEXP_VALUE then
        .ok (basePath ++ "/" ++ (" RegExp(" ++ r ++ ") "))
      else .ok basePath
  | none => .ok basePath

mutual
/-- The source's `parseEndpoints`: traverse the node's stack when one is
exposed (directly or behind the router field); otherwise merge a single
implicit endpoint at the base path into a nonempty accumulator, or return
the empty accumulator unchanged. -/
def parseEndpoints : ExpressApp → String → List Endpoint → Options →
    Except DecodeErr (List Endpoint)
  | .mk (some stack) _, basePath, endpoints, options =>
      parseStack stack basePath endpoints options
  | .mk none (some stack), basePath, endpoints, options =>
      parseStack stack basePath endpoints options
  | .mk none none, basePath, endpoints, _ =>
      if endpoints.length ≠ 0 then
        .ok (addEndpoints endpoints
          [{ path := basePath, methods := [], middlewares := [] }])
      else .ok endpoints

/-- The source's `parseStack` loop over the stack items; an exception in an
item aborts the whole walk. -/
def parseStack : LayerList → String → List Endpoint → Options →
    Except DecodeErr (List Endpoint)
  | .nil, _, endpoints, _ => .ok endpoints
  | .cons stackItem rest, basePath, endpoints, options =>
      match parseStackItem stackItem basePath endpoints options with
      | .error e => .error e
      | .ok endpoints2 => parseStack rest basePath endpoints2 options

/-- The body of the source's `parseStack` loop for one stack item: a layer
with a route is delegated to the route extractor; otherwise a layer whose
name is recognized extends the base path and is recursed into; any other
layer contributes nothing. -/
def parseStackItem : Layer → String → List Endpoint → Options →
    Except DecodeErr (List Endpoint)
  | .mk route nm path rx keys handle, basePath, endpoints, options =>
      match route with
      | some r => .ok (addEndpoints endpoints (parseExpressRoute r basePath))
      | none =>
          if (validNamesFor options).contains nm then
            match newBasePathOf (.mk route nm path rx keys handle) basePath with
            | .error e => .error e
            | .ok newBasePath =>
                parseEndpoints handle newBasePath endpoints options
          else .ok endpoints
end

/-- The source's exported `expressListEndpoints`: caller options merged over
the defaults, then the walk from the root with an empty base path and
accumulator. -/
def expressListEndpoints (app : ExpressApp) (options : Option Options) :
    Except DecodeErr (List Endpoint) :=
  let mergedOptions := options.getD DEFAULT_OPTIONS
  parseEndpoints app "" [] mergedOptions

/-! ## Predicates for the invariant proofs -/

/-- The path column of an endpoint list. -/
def pathsOf (l : List Endpoint) : List String :=
  l.map Endpoint.path

/-- Method-list hygiene of an endpoint list: duplicate-free and free of the
wildcard marker. -/
def methodsOK (l : List Endpoint) : Prop :=
  ∀ e ∈ l, e.methods.Nodup ∧ "_all" ∉ e.methods

/-- The accumulator absorbs a candidate endpoint when the first entry with
the candidate's path already carries all the candidate's methods (so a merge
leaves the accumulator unchanged). -/
def absorbs : List Endpoint → Endpoint → Prop
  | [], _ => False
  | x :: xs, e =>
      if x.path = e.path then ∀ m ∈ e.methods, m ∈ x.methods
      else absorbs xs e

mutual
/-- All routes in the tree below a node satisfy `q`. -/
def appRoutesOK (q : RouteObj → Bool) : ExpressApp → Bool
  | .mk (some s) (some r) => stackRoutesOK q s && stackRoutesOK q r
  | .mk (some s) none => stackRoutesOK q s
  | .mk none (some r) => stackRoutesOK q r
  | .mk none none => true

/-- All routes in the layers of a stack satisfy `q`. -/
def stackRoutesOK (q : RouteObj → Bool) : LayerList → Bool
  | .nil => true
  | .cons l ls => layerRoutesOK q l && stackRoutesOK q ls

/-- The layer's own route, if any, and all routes below its handle satisfy
`q`. -/
def layerRoutesOK (q : RouteObj → Bool) : Layer → Bool
  | .mk (some ro) _ _ _ _ h => q ro && appRoutesOK q h
  | .mk none _ _ _ _ h => appRoutesOK q h
end

/-- The method-table well-formedness the data model guarantees: the keys of
a JavaScript object are pairwise distinct, and HTTP method keys are stored
lower-case, hence contain no uppercase character. -/
def methodKeysOK (r : RouteObj) : Bool :=
  decide r.methods.Nodup &&
    r.methods.all (fun m => m.toList.all (fun c => !c.isUpper))

/-! ## Synthetic compiled patterns

The host framework's template compiler is external to the repository; the
spec describes the synthetic compiled patterns its round-trip property is
stated against, and the two capture-group encodings. -/

/-- One segment of a path template: a literal, or a named parameter. -/
inductive Seg : Type where
  | lit : String → Seg
  | param : String → Seg
deriving DecidableEq

/-- Rendering of one template segment, preceded by its separator. -/
def renderSeg : Seg → String
  | .lit s => "/" ++ s
  | .param n => "/:" ++ n

/-- The path template string of a segment list. -/
def renderTemplate (t : List Seg) : String :=
  String.join (t.map renderSeg)

/-- The ordered parameter names of a template. -/
def paramsOf (t : List Seg) : List String :=
  t.filterMap (fun s =>
    match s with
    | .param n => some n
    | .lit _ => none)

/-- Modelled from the spec: the host framework's compiler for capture-group
encoding A, where the path separator precedes the capture group as literal
(escaped) text outside it. -/
def compileSegA : Seg → String
  | .lit s => "\\/" ++ s
  | .param _ => "\\/(?:([^\\/]+?))"

/-- Modelled from the spec: a synthetic compiled pattern in encoding A for a
template, in the framework's serialized shape with its trailing optional
separator and anchor. -/
def compileA (t : List Seg) : String :=
  "/^" ++ String.join (t.map compileSegA) ++ "\\/?(?=\\/|$)/i"

/-- Modelled from the spec: the host framework's compiler for capture-group
encoding B (a later framework revision), where the capture group itself
begins with the escaped separator. -/
def compileSegB : Seg → String
  | .lit s => "\\/" ++ s
  | .param _ => "(?:\\/([^\\/]+?))"

/-- Modelled from the spec: a synthetic compiled pattern in encoding B for a
template. -/
def compileB (t : List Seg) : String :=
  "/^" ++ String.join (t.map compileSegB) ++ "\\/?(?=\\/|$)/i"

/-- The template with two short-named parameters used to exhibit the decoder
defects. -/
def tmplXY : List Seg := [.lit "a", .param "x", .param "y"]

/-- The one-parameter template used to exhibit the decoder's state leak. -/
def tmplX : List Seg := [.lit "a", .param "x"]

/-! ## Concrete routing trees for the closed evaluations -/

/-- A leaf node exposing no stack at all. -/
def leafApp : ExpressApp := .mk none none

/-- A terminal layer for a route on the single literal path "/users" with a
get entry and one anonymous handler. -/
def usersRouteLayer : Layer :=
  .mk (some ⟨["get"], .inl "/users", [""]⟩) "bound dispatch" none none [] leafApp

/-- A router node whose stack holds only `usersRouteLayer`. -/
def usersRouter : ExpressApp :=
  .mk (some (.cons usersRouteLayer .nil)) none

/-- An application mounting `usersRouter` at the root sentinel pattern, the
way the framework mounts a router with no mount path. -/
def rootMountApp : ExpressApp :=
  .mk (some (.cons
    (.mk none "router" none (some EXPRESS_ROOT_PATH_REGEXP_VALUE) [] usersRouter)
    .nil)) none

/-- A two-route demonstration application: get and post declarations on the
same literal path. -/
def demoApp : ExpressApp :=
  .mk (some (.cons
    (.mk (some ⟨["get"], .inl "/health", []⟩) "bound dispatch" none none [] leafApp)
    (.cons
      (.mk (some ⟨["post"], .inl "/health", ["hb"]⟩) "bound dispatch" none none [] leafApp)
      .nil))) none

/-! ## Decoder state lemmas -/

/-- A failed `test` of the global parameter regex resets `lastIndex` to 0. -/
theorem hasParamsSt_false_snd {s : List Char} {st st0 : Nat}
    (h : hasParamsSt s st = (false, st0)) : st0 = 0 := by
  unfold hasParamsSt at h
  split at h
  · exact absurd (congrArg Prod.fst h) (by simp)
  · exact (congrArg Prod.snd h).symm

/-- The decode loop can only exit normally through a failed `test`, which has
just reset the shared `lastIndex` to 0. -/
theorem paramLoop_ok_snd :
    ∀ (params : List String) (s : List Char) (st : Nat) (r : List Char)
      (st' : Nat), paramLoop s st params = (.ok r, st') → st' = 0 := by
  intro params
  induction params with
  | nil =>
      intro s st r st' h
      unfold paramLoop at h
      cases hh : hasParamsSt s st with
      | mk b st2 =>
          rw [hh] at h
          cases b with
          | false => exact (congrArg Prod.snd h).symm.trans (hasParamsSt_false_snd hh)
          | true => exact absurd (congrArg Prod.fst h) (by simp)
  | cons p rest ih =>
      intro s st r st' h
      unfold paramLoop at h
      cases hh : hasParamsSt s st with
      | mk b st2 =>
          rw [hh] at h
          cases b with
          | false => exact (congrArg Prod.snd h).symm.trans (hasParamsSt_false_snd hh)
          | true => exact ih _ _ _ _ h

/-! ## Claim theorems for the pattern decoder -/

/-- Claim C1 (code bug): the root sentinel pattern is accidentally accepted
by the path-parsing regex — its serialized form matches with an empty capture
— so the walker takes the decode branch and appends a bare separator to the
base path instead of leaving it unchanged as the sentinel comparison
intended: an endpoint on "/users" under a root-mounted router is reported as
"//users". -/
theorem root_sentinel_appends_separator :
    testParse EXPRESS_ROOT_PATH_REGEXP_VALUE.toList = true
    ∧ newBasePathOf
        (.mk none "router" none (some EXPRESS_ROOT_PATH_REGEXP_VALUE) [] usersRouter)
        "" = .ok "/"
    ∧ expressListEndpoints rootMountApp none =
        .ok [⟨"//users", ["GET"], ["anonymous"]⟩] :=
  ⟨rfl, rfl, rfl⟩

/-- Claim C2 (code bug): the decoder round-trip fails on a template with two
short-named parameters.  The global parameter regex's `lastIndex` survives
each successful `test` and the replacement shortens the text, so the search
resumes past the second capture-group fragment: encoding A decodes
`/a/:x/:y` to `a/:x` (second placeholder dropped) and encoding B decodes it
to `a`, instead of the original template. -/
theorem decoder_roundtrip_fails_on_two_params :
    renderTemplate tmplXY = "/a/:x/:y"
    ∧ paramsOf tmplXY = ["x", "y"]
    ∧ (parseExpressPathSt ((compileA tmplXY).toList) (paramsOf tmplXY) 0).1 =
        .ok "a/:x".toList
    ∧ (parseExpressPathSt ((compileB tmplXY).toList) (paramsOf tmplXY) 0).1 =
        .ok "a".toList
    ∧ ("/a/:x" : String) ≠ renderTemplate tmplXY
    ∧ ("/a" : String) ≠ renderTemplate tmplXY :=
  ⟨rfl, rfl, rfl, rfl, by decide, by decide⟩

/-- Claim C8 (code bug): descriptor exhaustion is only detected when the
loop's `test` still sees a fragment.  With two capture-group fragments and a
single descriptor the stale `lastIndex` makes the second `test` miss the
remaining fragment, so the decoder silently returns a template that lost a
parameter instead of failing loudly; only the zero-descriptor case throws. -/
theorem decoder_missing_descriptors_not_always_loud :
    (paramsOf tmplXY).length = 2
    ∧ parseExpressPathSt ((compileA tmplXY).toList) [] 0 =
        (.error .descriptorsExhausted, 20)
    ∧ parseExpressPathSt ((compileA tmplXY).toList) ["x"] 0 =
        (.ok "a/:x".toList, 0) :=
  ⟨rfl, rfl, rfl⟩

/-- Claim C3 (counterexample): decode is not side-effect free across
invocations.  A decode of a one-parameter pattern with an empty descriptor
list throws and leaves the shared `lastIndex` at 20; a following decode of
that same pattern with the right descriptor then returns `a` where a
clean-state invocation returns `a/:x` — same arguments, different results,
distinguished only by the earlier invocation. -/
theorem decoder_state_leak_cex :
    parseExpressPathSt ((compileA tmplX).toList) [] 0 =
      (.error .descriptorsExhausted, 20)
    ∧ (parseExpressPathSt ((compileA tmplX).toList) ["x"] 20).1 =
        .ok "a".toList
    ∧ (parseExpressPathSt ((compileA tmplX).toList) ["x"] 0).1 =
        .ok "a/:x".toList
    ∧ "a".toList ≠ "a/:x".toList :=
  ⟨rfl, rfl, rfl, by decide⟩

/-- Claim C3 (amended): every decode invocation that returns a template has
just exited its loop through a failed `test`, which resets the shared
`lastIndex` to 0 — so decode is deterministic and repeatable as long as
every earlier invocation returned normally; only a throwing invocation
leaves an observable trace. -/
theorem decode_normal_return_resets (s : List Char) (params : List String)
    (st : Nat) (h : (parseExpressPathSt s params st).1.isOk = true) :
    (parseExpressPathSt s params st).2 = 0 := by
  unfold parseExpressPathSt at h ⊢
  cases hpl : paramLoop s st params with
  | mk res st2 =>
      rw [hpl] at h
      cases res with
      | error e => simp [Except.isOk, Except.toBool] at h
      | ok parsed =>
          have h0 : st2 = 0 := paramLoop_ok_snd params s st parsed st2 hpl
          cases hex : (if parsed ≠ s then execParse parsed else execParse s) with
          | none => simp [hex, Except.isOk, Except.toBool] at h
          | some g =>
              cases g with
              | none => simp [hex, Except.isOk, Except.toBool] at h
              | some g1 => simp [hex]; exact h0

/-- Witness for the amended claim C3 at a concrete invocation. -/
theorem decode_normal_return_resets_witness :
    (parseExpressPathSt ((compileA tmplX).toList) ["x"] 0).2 = 0 :=
  decode_normal_return_resets ((compileA tmplX).toList) ["x"] 0 rfl

/-! ## Merger lemmas -/

/-- Membership form of the boolean `contains` on method lists. -/
theorem contains_iff {l : List String} {a : String} :
    l.contains a = true ↔ a ∈ l := by
  simp [List.contains]

/-- Merging one candidate leaves the set of paths unchanged when the
candidate's path is already present, and appends it at the end otherwise. -/
theorem mergeOne_paths (acc : List Endpoint) (e : Endpoint) :
    pathsOf (mergeOne acc e) =
      if e.path ∈ pathsOf acc then pathsOf acc else pathsOf acc ++ [e.path] := by
  induction acc with
  | nil => simp [mergeOne, pathsOf]
  | cons x xs ih =>
      by_cases hp : x.path = e.path
      · simp [mergeOne, hp, pathsOf]
      · simp only [mergeOne, if_neg hp, pathsOf, List.map_cons] at ih ⊢
        rw [ih]
        by_cases hm : e.path ∈ xs.map Endpoint.path
        · rw [if_pos hm, if_pos (by simp [hm])]
        · rw [if_neg hm, if_neg (by
            simp only [List.mem_cons]
            rintro (h | h)
            · exact hp h.symm
            · exact hm h)]
          simp

/-- Merging one candidate preserves distinctness of the paths. -/
theorem mergeOne_nodup {acc : List Endpoint} {e : Endpoint}
    (h : (pathsOf acc).Nodup) : (pathsOf (mergeOne acc e)).Nodup := by
  rw [mergeOne_paths]
  split
  · exact h
  · next hm => simp [List.nodup_append, h, hm]

/-- The merger preserves distinctness of the paths. -/
theorem addEndpoints_nodup :
    ∀ (E acc : List Endpoint), (pathsOf acc).Nodup →
      (pathsOf (addEndpoints acc E)).Nodup := by
  intro E
  induction E with
  | nil => intro acc h; exact h
  | cons f E ih => intro acc h; exact ih _ (mergeOne_nodup h)

/-- Merging a candidate the accumulator absorbs changes nothing. -/
theorem mergeOne_eq_of_absorbs :
    ∀ {acc : List Endpoint} {e : Endpoint}, absorbs acc e →
      mergeOne acc e = acc := by
  intro acc
  induction acc with
  | nil => intro e h; exact absurd h (by simp [absorbs])
  | cons x xs ih =>
      intro e h
      unfold absorbs at h
      by_cases hp : x.path = e.path
      · rw [if_pos hp] at h
        unfold mergeOne
        rw [if_pos hp]
        have hf : e.methods.filter (fun m => !(x.methods.contains m)) = [] := by
          rw [List.filter_eq_nil_iff]
          intro m hm
          simp [h m hm]
        rw [hf]
        simp
      · rw [if_neg hp] at h
        unfold mergeOne
        rw [if_neg hp, ih h]

/-- After merging a candidate, the accumulator absorbs it. -/
theorem absorbs_mergeOne_self :
    ∀ (acc : List Endpoint) (e : Endpoint), absorbs (mergeOne acc e) e := by
  intro acc
  induction acc with
  | nil => intro e; simp [mergeOne, absorbs]
  | cons x xs ih =>
      intro e
      obtain ⟨xp, xm, xw⟩ := x
      by_cases hp : xp = e.path
      · unfold mergeOne
        simp only [if_pos hp]
        unfold absorbs
        simp only [if_pos hp]
        intro m hm
        by_cases hmem : m ∈ xm
        · exact List.mem_append_left _ hmem
        · refine List.mem_append_right _ (List.mem_filter.mpr ⟨hm, ?_⟩)
          simp only [Bool.not_eq_true']
          exact (Bool.not_eq_true _).mp (fun hc => hmem (contains_iff.mp hc))
      · unfold mergeOne
        simp only [if_neg hp]
        unfold absorbs
        simp only [if_neg hp]
        exact ih e

/-- Absorption is stable under merging any further candidate. -/
theorem absorbs_mergeOne :
    ∀ (acc : List Endpoint) (e f : Endpoint), absorbs acc e →
      absorbs (mergeOne acc f) e := by
  intro acc
  induction acc with
  | nil => intro e f h; exact absurd h (by simp [absorbs])
  | cons x xs ih =>
      intro e f h
      obtain ⟨xp, xm, xw⟩ := x
      unfold absorbs at h
      by_cases hf : xp = f.path
      · unfold mergeOne
        simp only [if_pos hf]
        unfold absorbs
        by_cases he : xp = e.path
        · simp only [if_pos he] at h ⊢
          intro m hm
          exact List.mem_append_left _ (h m hm)
        · simp only [if_neg he] at h ⊢
          exact h
      · unfold mergeOne
        simp only [if_neg hf]
        unfold absorbs
        by_cases he : xp = e.path
        · simp only [if_pos he] at h ⊢
          exact h
        · simp only [if_neg he] at h ⊢
          exact ih e f h

/-- Absorption is stable under merging a whole candidate list. -/
theorem absorbs_addEndpoints_of (E : List Endpoint) :
    ∀ (acc : List Endpoint) (e : Endpoint), absorbs acc e →
      absorbs (addEndpoints acc E) e := by
  induction E with
  | nil => intro acc e h; exact h
  | cons f E ih => intro acc e h; exact ih _ _ (absorbs_mergeOne _ _ _ h)

/-- After one merge of a list, the result absorbs each of its members. -/
theorem addEndpoints_absorbs (E : List Endpoint) :
    ∀ (acc : List Endpoint), ∀ e ∈ E, absorbs (addEndpoints acc E) e := by
  induction E with
  | nil => intro acc e he; cases he
  | cons f E ih =>
      intro acc e he
      cases he with
      | head => exact absorbs_addEndpoints_of E _ _ (absorbs_mergeOne_self acc f)
      | tail _ hm => exact ih (mergeOne acc f) e hm

/-- Merging a list every member of which is absorbed changes nothing. -/
theorem addEndpoints_eq_of_absorbs :
    ∀ (E acc : List Endpoint), (∀ e ∈ E, absorbs acc e) →
      addEndpoints acc E = acc := by
  intro E
  induction E with
  | nil => intro acc _; rfl
  | cons f E ih =>
      intro acc h
      have h1 : mergeOne acc f = acc :=
        mergeOne_eq_of_absorbs (h f (List.mem_cons_self f E))
      show addEndpoints (mergeOne acc f) E = acc
      rw [h1]
      exact ih acc (fun e he => h e (List.mem_cons_of_mem f he))

/-- Claim C5: endpoint merging is idempotent — merging the same endpoint
list into an empty accumulator twice yields exactly the same accumulator as
merging it once (same entries in the same order, same method lists, same
middlewares). -/
theorem addEndpoints_idempotent (E : List Endpoint) :
    addEndpoints (addEndpoints [] E) E = addEndpoints [] E :=
  addEndpoints_eq_of_absorbs E _ (addEndpoints_absorbs E [])

/-! ## Claim theorems for the stack walker's leaf and route cases -/

/-- Claim C7 (counterexample): a node exposing no traversable stack, handed
the EMPTY accumulator, is returned unchanged — the implicit endpoint the
claim demands for every accumulator is not merged, and merging it would have
produced a nonempty list. -/
theorem no_stack_empty_acc_unchanged :
    parseEndpoints (.mk none none) "" [] DEFAULT_OPTIONS = .ok []
    ∧ addEndpoints [] [⟨"", [], []⟩] ≠ [] :=
  ⟨rfl, by decide⟩

/-- Claim C7 (amended): for every node exposing no traversable stack and
every NONEMPTY accumulator and base path, the walker merges the single
implicit endpoint at the base path, with empty methods and middlewares, into
the accumulator and returns it; the empty accumulator is returned
unchanged. -/
theorem no_stack_nonempty_acc_placeholder (app : ExpressApp)
    (hs : appStack app = none) (basePath : String)
    (endpoints : List Endpoint) (hne : endpoints ≠ []) (options : Options) :
    parseEndpoints app basePath endpoints options =
      .ok (addEndpoints endpoints [⟨basePath, [], []⟩]) := by
  match app with
  | .mk (some s) o => exact absurd hs (by simp [appStack])
  | .mk none o =>
      have ho : o = none := hs
      subst ho
      show (if endpoints.length ≠ 0 then
        Except.ok (addEndpoints endpoints [⟨basePath, [], []⟩]) else .ok endpoints) = _
      rw [if_pos (fun h0 => hne (List.length_eq_zero.mp h0))]

/-- Witness for the amended claim C7 at a concrete node and accumulator. -/
theorem no_stack_nonempty_acc_placeholder_witness :
    parseEndpoints (.mk none none) "/b" [⟨"/x", ["GET"], []⟩] DEFAULT_OPTIONS =
      .ok (addEndpoints [⟨"/x", ["GET"], []⟩] [⟨"/b", [], []⟩]) :=
  no_stack_nonempty_acc_placeholder (.mk none none) rfl "/b"
    [⟨"/x", ["GET"], []⟩] (by decide) DEFAULT_OPTIONS

/-- Claim C9: a stack item carrying a route is always delegated to the route
extractor and its endpoints merged — whatever the layer's name and whatever
the options, both of which only govern the mount branch taken by layers
without a route. -/
theorem route_layer_always_extracted (stackItem : Layer) (r : RouteObj)
    (hr : stackItem.route = some r) (basePath : String)
    (endpoints : List Endpoint) (options : Options) :
    parseStackItem stackItem basePath endpoints options =
      .ok (addEndpoints endpoints (parseExpressRoute r basePath)) := by
  match stackItem with
  | .mk ro nm p rx ks handle =>
      have h : ro = some r := hr
      subst h
      rfl

/-- Witness for claim C9: a route layer with an unrecognized name is still
extracted, also with middleware traversal disabled. -/
theorem route_layer_always_extracted_witness :
    parseStackItem
      (.mk (some ⟨["get"], .inl "/w", []⟩) "unrecognized" none none [] leafApp)
      "/b" [] ⟨false⟩ =
      .ok (addEndpoints [] (parseExpressRoute ⟨["get"], .inl "/w", []⟩ "/b")) :=
  route_layer_always_extracted
    (.mk (some ⟨["get"], .inl "/w", []⟩) "unrecognized" none none [] leafApp)
    ⟨["get"], .inl "/w", []⟩ rfl "/b" [] ⟨false⟩

/-- Claim C10: a terminal route whose method table is empty or holds only
the wildcard entry is still reported — one endpoint per declared path, with
the empty method list and the usual middlewares; nothing is dropped. -/
theorem wildcard_only_route_reported (r : RouteObj) (basePath : String)
    (h : r.methods = [] ∨ r.methods = ["_all"]) :
    parseExpressRoute r basePath = (routePaths r).map (fun path =>
      { path := normalizePathParams
          (if basePath ≠ "" && path = "/" then basePath else basePath ++ path)
        methods := []
        middlewares := getRouteMiddlewares r })
    ∧ (parseExpressRoute r basePath).length = (routePaths r).length := by
  have hm : getRouteMethods r = [] := by
    rcases h with h | h <;> simp [getRouteMethods, h]
  constructor
  · simp [parseExpressRoute, hm]
  · simp [parseExpressRoute]

/-- Witness for claim C10 at a wildcard-only route with one path and one
middleware. -/
theorem wildcard_only_route_reported_witness :
    parseExpressRoute ⟨["_all"], .inl "/x", ["mw"]⟩ "" =
      (routePaths ⟨["_all"], .inl "/x", ["mw"]⟩).map (fun path =>
        { path := normalizePathParams
            (if ("" : String) ≠ "" && path = "/" then "" else "" ++ path)
          methods := []
          middlewares := getRouteMiddlewares ⟨["_all"], .inl "/x", ["mw"]⟩ })
    ∧ (parseExpressRoute ⟨["_all"], .inl "/x", ["mw"]⟩ "").length =
        (routePaths ⟨["_all"], .inl "/x", ["mw"]⟩).length :=
  wildcard_only_route_reported ⟨["_all"], .inl "/x", ["mw"]⟩ "" (Or.inr rfl)

/-! ## Uppercasing lemmas

The method names the data model admits are stored lower-case; on such
strings the uppercasing map is injective and never produces the wildcard
marker, which gives the hygiene of `getRouteMethods`. -/

/-- Value of a character built from a valid code point. -/
theorem char_toNat_ofNat {n : Nat} (h : n.isValidChar) :
    (Char.ofNat n).toNat = n := by
  simp [Char.ofNat, h, Char.ofNatAux, Char.toNat, UInt32.toNat]

/-- Characters with equal code points are equal. -/
theorem char_eq_of_toNat_eq {c c' : Char} (h : c.toNat = c'.toNat) :
    c = c' := by
  apply Char.ext
  apply UInt32.eq_of_toBitVec_eq
  apply BitVec.eq_of_toNat_eq
  exact h

/-- The uppercase test in terms of code points. -/
theorem char_isUpper_iff {c : Char} :
    c.isUpper = true ↔ 65 ≤ c.toNat ∧ c.toNat ≤ 90 := by
  simp [Char.isUpper, Char.toNat, UInt32.le_def, BitVec.le_def, UInt32.toNat]

/-- Code point of an uppercased character. -/
theorem toNat_toUpper (c : Char) :
    (Char.toUpper c).toNat =
      if c.toNat ≥ 97 ∧ c.toNat ≤ 122 then c.toNat - 32 else c.toNat := by
  unfold Char.toUpper
  split
  · next hc =>
      rw [if_pos hc]
      exact char_toNat_ofNat (Or.inl (by omega))
  · next hc => rw [if_neg hc]

/-- Uppercasing is injective on characters that are not upper-case. -/
theorem toUpper_inj_of_not_upper {c c' : Char} (h : ¬ c.isUpper = true)
    (h' : ¬ c'.isUpper = true) (heq : Char.toUpper c = Char.toUpper c') :
    c = c' := by
  have e1 := toNat_toUpper c
  have e2 := toNat_toUpper c'
  have hn := congrArg Char.toNat heq
  rw [e1, e2] at hn
  have hu : ¬ (65 ≤ c.toNat ∧ c.toNat ≤ 90) := fun hc => h (char_isUpper_iff.mpr hc)
  have hu' : ¬ (65 ≤ c'.toNat ∧ c'.toNat ≤ 90) := fun hc => h' (char_isUpper_iff.mpr hc)
  apply char_eq_of_toNat_eq
  split at hn <;> split at hn <;> omega

/-- Uppercasing never yields the letter of the wildcard marker's second
position. -/
theorem toUpper_ne_lower_a (c : Char) : Char.toUpper c ≠ 'a' := by
  intro h
  have hn := congrArg Char.toNat h
  rw [toNat_toUpper] at hn
  have ha : ('a' : Char).toNat = 97 := rfl
  rw [ha] at hn
  split at hn <;> omega

/-- Mapping uppercasing over two lists of uppercase-free characters is
injective. -/
theorem map_toUpper_inj :
    ∀ (l l' : List Char), (∀ c ∈ l, ¬ c.isUpper = true) →
      (∀ c ∈ l', ¬ c.isUpper = true) →
      l.map Char.toUpper = l'.map Char.toUpper → l = l' := by
  intro l
  induction l with
  | nil =>
      intro l' _ _ h
      cases l' with
      | nil => rfl
      | cons c t => simp at h
  | cons c t ih =>
      intro l' h1 h2 h
      cases l' with
      | nil => simp at h
      | cons c' t' =>
          simp only [List.map_cons, List.cons.injEq] at h
          obtain ⟨hc, ht⟩ := h
          have hcc : c = c' :=
            toUpper_inj_of_not_upper (h1 c (List.mem_cons_self c t))
              (h2 c' (List.mem_cons_self c' t')) hc
          have htt : t = t' :=
            ih t' (fun d hd => h1 d (List.mem_cons_of_mem c hd))
              (fun d hd => h2 d (List.mem_cons_of_mem c' hd)) ht
          rw [hcc, htt]

/-- Uppercasing a string never yields the wildcard marker. -/
theorem strUpper_ne_all (m : String) : strUpper m ≠ "_all" := by
  intro h
  have hd : m.toList.map Char.toUpper = ['_', 'a', 'l', 'l'] :=
    congrArg String.data h
  cases hml : m.toList with
  | nil => rw [hml] at hd; simp at hd
  | cons c0 t0 =>
      rw [hml] at hd
      cases t0 with
      | nil => simp at hd
      | cons c1 t1 =>
          simp only [List.map_cons, List.cons.injEq] at hd
          exact toUpper_ne_lower_a c1 hd.2.1

/-- Uppercasing is injective on strings free of uppercase characters. -/
theorem strUpper_inj_on {a b : String}
    (ha : ∀ c ∈ a.toList, ¬ c.isUpper = true)
    (hb : ∀ c ∈ b.toList, ¬ c.isUpper = true)
    (h : strUpper a = strUpper b) : a = b := by
  apply String.ext
  exact map_toUpper_inj a.toList b.toList ha hb (congrArg String.data h)

/-- The reported methods of a route never include the wildcard marker. -/
theorem getRouteMethods_not_all (r : RouteObj) :
    "_all" ∉ getRouteMethods r := by
  unfold getRouteMethods
  intro h
  rcases List.mem_map.mp h with ⟨m, _, hm⟩
  exact strUpper_ne_all m hm

/-- The reported methods of a route with well-formed keys are
duplicate-free. -/
theorem getRouteMethods_nodup {r : RouteObj} (h1 : r.methods.Nodup)
    (h2 : ∀ m ∈ r.methods, ∀ c ∈ m.toList, ¬ c.isUpper = true) :
    (getRouteMethods r).Nodup := by
  unfold getRouteMethods
  apply List.Nodup.map_on
  · intro x hx y hy hxy
    exact strUpper_inj_on (h2 x (List.mem_filter.mp hx).1)
      (h2 y (List.mem_filter.mp hy).1) hxy
  · exact h1.filter _

/-- Every endpoint the route extractor produces from a route with
well-formed keys carries a duplicate-free, wildcard-free method list. -/
theorem parseExpressRoute_methods_clean {r : RouteObj}
    (hq : methodKeysOK r = true) (basePath : String) :
    ∀ e ∈ parseExpressRoute r basePath,
      e.methods.Nodup ∧ "_all" ∉ e.methods := by
  intro e he
  have hm : e.methods = getRouteMethods r := by
    unfold parseExpressRoute at he
    rcases List.mem_map.mp he with ⟨p, _, rfl⟩
    rfl
  rw [hm]
  unfold methodKeysOK at hq
  rw [Bool.and_eq_true] at hq
  obtain ⟨h1, h2⟩ := hq
  refine ⟨getRouteMethods_nodup (of_decide_eq_true h1) ?_,
    getRouteMethods_not_all r⟩
  intro m hm2 c hc
  have h3 := List.all_eq_true.mp (List.all_eq_true.mp h2 m hm2) c hc
  simpa using h3

/-- Merging one hygienic candidate into a hygienic accumulator keeps every
method list duplicate-free and wildcard-free. -/
theorem mergeOne_methodsOK {acc : List Endpoint} {e : Endpoint}
    (hacc : methodsOK acc) (he1 : e.methods.Nodup)
    (he2 : "_all" ∉ e.methods) : methodsOK (mergeOne acc e) := by
  induction acc with
  | nil =>
      intro f hf
      cases hf with
      | head => exact ⟨he1, he2⟩
      | tail _ h0 => cases h0
  | cons x xs ih =>
      have hx := hacc x (List.mem_cons_self x xs)
      have hxs : methodsOK xs := fun f hf => hacc f (List.mem_cons_of_mem x hf)
      by_cases hp : x.path = e.path
      · unfold mergeOne
        rw [if_pos hp]
        intro f hf
        cases hf with
        | head =>
            constructor
            · refine List.Nodup.append hx.1 (he1.filter _) ?_
              rw [List.disjoint_left]
              intro m hmx hmf
              have hc := (List.mem_filter.mp hmf).2
              rw [Bool.not_eq_true'] at hc
              exact absurd hmx (by simpa using hc)
            · intro hmem
              cases List.mem_append.mp hmem with
              | inl h0 => exact hx.2 h0
              | inr h0 => exact he2 (List.mem_filter.mp h0).1
        | tail _ h0 => exact hxs f h0
      · unfold mergeOne
        rw [if_neg hp]
        intro f hf
        cases hf with
        | head => exact hx
        | tail _ h0 => exact ih hxs f h0

/-- The merger keeps every method list duplicate-free and wildcard-free when
fed hygienic candidates. -/
theorem addEndpoints_methodsOK :
    ∀ (E acc : List Endpoint), methodsOK acc →
      (∀ e ∈ E, e.methods.Nodup ∧ "_all" ∉ e.methods) →
      methodsOK (addEndpoints acc E) := by
  intro E
  induction E with
  | nil => intro acc h _; exact h
  | cons f E ih =>
      intro acc h hE
      have hf := hE f (List.mem_cons_self f E)
      exact ih _ (mergeOne_methodsOK h hf.1 hf.2)
        (fun e he => hE e (List.mem_cons_of_mem f he))

/-! ## Traversal preservation engine

One mutual induction over the tree shows that any accumulator property
preserved by the two ways the walker touches the accumulator — merging a
route's extracted endpoints (for routes satisfying a per-route check) and
merging the implicit placeholder endpoint — holds for every successful
walk. -/

mutual
theorem appRoutesOK_true (app : ExpressApp) :
    appRoutesOK (fun _ => true) app = true := by
  match app with
  | .mk (some s) (some r) =>
      simp [appRoutesOK, stackRoutesOK_true s, stackRoutesOK_true r]
  | .mk (some s) none => simpa [appRoutesOK] using stackRoutesOK_true s
  | .mk none (some r) => simpa [appRoutesOK] using stackRoutesOK_true r
  | .mk none none => rfl

theorem stackRoutesOK_true (s : LayerList) :
    stackRoutesOK (fun _ => true) s = true := by
  match s with
  | .nil => rfl
  | .cons l ls =>
      simp [stackRoutesOK, layerRoutesOK_true l, stackRoutesOK_true ls]

theorem layerRoutesOK_true (l : Layer) :
    layerRoutesOK (fun _ => true) l = true := by
  match l with
  | .mk (some ro) nm p rx ks h =>
      simp [layerRoutesOK, appRoutesOK_true h]
  | .mk none nm p rx ks h => simpa [layerRoutesOK] using appRoutesOK_true h
end

mutual
theorem parseEndpoints_pres (P : List Endpoint → Prop) (q : RouteObj → Bool)
    (hroute : ∀ acc r bp, P acc → q r = true →
      P (addEndpoints acc (parseExpressRoute r bp)))
    (himpl : ∀ acc bp, P acc → P (addEndpoints acc [⟨bp, [], []⟩]))
    (app : ExpressApp) (bp : String) (acc : List Endpoint) (opts : Options)
    (l : List Endpoint) (hq : appRoutesOK q app = true) (hP : P acc)
    (h : parseEndpoints app bp acc opts = .ok l) : P l := by
  match app, hq, h with
  | .mk (some s) (some r), hq, h =>
      have hs : stackRoutesOK q s = true := by
        rw [show appRoutesOK q (.mk (some s) (some r)) =
          (stackRoutesOK q s && stackRoutesOK q r) from rfl,
          Bool.and_eq_true] at hq
        exact hq.1
      exact parseStack_pres P q hroute himpl s bp acc opts l hs hP h
  | .mk (some s) none, hq, h =>
      exact parseStack_pres P q hroute himpl s bp acc opts l hq hP h
  | .mk none (some r), hq, h =>
      exact parseStack_pres P q hroute himpl r bp acc opts l hq hP h
  | .mk none none, hq, h =>
      rw [show parseEndpoints (.mk none none) bp acc opts =
        (if acc.length ≠ 0 then
          Except.ok (addEndpoints acc [⟨bp, [], []⟩]) else .ok acc) from rfl] at h
      split at h
      · cases h; exact himpl acc bp hP
      · cases h; exact hP

theorem parseStack_pres (P : List Endpoint → Prop) (q : RouteObj → Bool)
    (hroute : ∀ acc r bp, P acc → q r = true →
      P (addEndpoints acc (parseExpressRoute r bp)))
    (himpl : ∀ acc bp, P acc → P (addEndpoints acc [⟨bp, [], []⟩]))
    (stack : LayerList) (bp : String) (acc : List Endpoint) (opts : Options)
    (l : List Endpoint) (hq : stackRoutesOK q stack = true) (hP : P acc)
    (h : parseStack stack bp acc opts = .ok l) : P l := by
  match stack, hq, h with
  | .nil, hq, h => cases h; exact hP
  | .cons item rest, hq, h =>
      have hqi : layerRoutesOK q item = true := by
        rw [show stackRoutesOK q (.cons item rest) =
          (layerRoutesOK q item && stackRoutesOK q rest) from rfl,
          Bool.and_eq_true] at hq
        exact hq.1
      have hqr : stackRoutesOK q rest = true := by
        rw [show stackRoutesOK q (.cons item rest) =
          (layerRoutesOK q item && stackRoutesOK q rest) from rfl,
          Bool.and_eq_true] at hq
        exact hq.2
      rw [show parseStack (.cons item rest) bp acc opts =
        (match parseStackItem item bp acc opts with
         | .error e => .error e
         | .ok endpoints2 => parseStack rest bp endpoints2 opts) from rfl] at h
      cases hit : parseStackItem item bp acc opts with
      | error e => rw [hit] at h; cases h
      | ok acc2 =>
          rw [hit] at h
          have hP2 : P acc2 :=
            parseStackItem_pres P q hroute himpl item bp acc opts acc2 hqi hP hit
          exact parseStack_pres P q hroute himpl rest bp acc2 opts l hqr hP2 h

theorem parseStackItem_pres (P : List Endpoint → Prop) (q : RouteObj → Bool)
    (hroute : ∀ acc r bp, P acc → q r = true →
      P (addEndpoints acc (parseExpressRoute r bp)))
    (himpl : ∀ acc bp, P acc → P (addEndpoints acc [⟨bp, [], []⟩]))
    (item : Layer) (bp : String) (acc : List Endpoint) (opts : Options)
    (l : List Endpoint) (hq : layerRoutesOK q item = true) (hP : P acc)
    (h : parseStackItem item bp acc opts = .ok l) : P l := by
  match item, hq, h with
  | .mk (some r) nm p rx ks handle, hq, h =>
      have hqr : q r = true := by
        rw [show layerRoutesOK q (.mk (some r) nm p rx ks handle) =
          (q r && appRoutesOK q handle) from rfl,
          Bool.and_eq_true] at hq
        exact hq.1
      rw [show parseStackItem (.mk (some r) nm p rx ks handle) bp acc opts =
        .ok (addEndpoints acc (parseExpressRoute r bp)) from rfl] at h
      cases h
      exact hroute acc r bp hP hqr
  | .mk none nm p rx ks handle, hq, h =>
      have hqa : appRoutesOK q handle = true := hq
      rw [show parseStackItem (.mk none nm p rx ks handle) bp acc opts =
        (if (validNamesFor opts).contains nm then
          match newBasePathOf (.mk none nm p rx ks handle) bp with
          | .error e => .error e
          | .ok newBasePath => parseEndpoints handle newBasePath acc opts
         else .ok acc) from rfl] at h
      split at h
      · cases hnb : newBasePathOf (.mk none nm p rx ks handle) bp with
        | error e => rw [hnb] at h; cases h
        | ok nbp =>
            rw [hnb] at h
            exact parseEndpoints_pres P q hroute himpl handle nbp acc opts l
              hqa hP h
      · cases h; exact hP
end

/-- Claim C4: for every routing tree (the inductive model is finite, so the
walk is a total function and always terminates) and every options value, a
successful walk returns an endpoint list whose paths are pairwise
distinct — a candidate with an already-present path is merged into the
existing entry, never appended. -/
theorem listEndpoints_paths_nodup (app : ExpressApp) (options : Option Options)
    (l : List Endpoint) (h : expressListEndpoints app options = .ok l) :
    (l.map Endpoint.path).Nodup :=
  parseEndpoints_pres (fun acc => (pathsOf acc).Nodup) (fun _ => true)
    (fun acc r bp hP _ => addEndpoints_nodup _ _ hP)
    (fun acc bp hP => addEndpoints_nodup _ _ hP)
    app "" [] (options.getD DEFAULT_OPTIONS) l (appRoutesOK_true app)
    (by simp [pathsOf]) h

/-- Witness for claim C4 on a tree with two routes that resolve to the same
path. -/
theorem listEndpoints_paths_nodup_witness :
    (([⟨"/health", ["GET", "POST"], []⟩] : List Endpoint).map
      Endpoint.path).Nodup :=
  listEndpoints_paths_nodup demoApp none [⟨"/health", ["GET", "POST"], []⟩] rfl

/-- Claim C6: under the data model's method-table well-formedness (keys
pairwise distinct and stored lower-case), every endpoint a successful walk
returns has a method list that is duplicate-free and free of the wildcard
marker; the reported methods of a route are exactly its non-wildcard keys
uppercased in first-appearance order, so a method table of get, post and the
wildcard yields GET then POST; and the merger preserves the hygiene,
appending only genuinely new methods at the end. -/
theorem listEndpoints_methods_clean (app : ExpressApp)
    (options : Option Options) (l : List Endpoint)
    (hq : appRoutesOK methodKeysOK app = true)
    (h : expressListEndpoints app options = .ok l) :
    methodsOK l
    ∧ getRouteMethods ⟨["get", "post", "_all"], .inl "/", []⟩ = ["GET", "POST"] :=
  ⟨parseEndpoints_pres methodsOK methodKeysOK
    (fun acc r bp hP hq2 =>
      addEndpoints_methodsOK _ _ hP (parseExpressRoute_methods_clean hq2 bp))
    (fun acc bp hP =>
      addEndpoints_methodsOK _ _ hP (by
        intro e he
        cases he with
        | head => exact ⟨List.nodup_nil, by simp⟩
        | tail _ h0 => cases h0))
    app "" [] (options.getD DEFAULT_OPTIONS) l hq (by simp [methodsOK]) h,
   by decide⟩

/-- Witness for claim C6 on the two-route tree. -/
theorem listEndpoints_methods_clean_witness :
    methodsOK [⟨"/health", ["GET", "POST"], []⟩]
    ∧ getRouteMethods ⟨["get", "post", "_all"], .inl "/", []⟩ = ["GET", "POST"] :=
  listEndpoints_methods_clean demoApp none [⟨"/health", ["GET", "POST"], []⟩]
    (by decide) rfl

end ExpressListEndpoints
